import Mathlib

/-!
Verification of the steganography module (src/steganography.py).

Strings are modelled as `List Char` (Python `str` is a sequence of Unicode
code points).  Byte strings are modelled as `List Nat` whose elements are
below 256.  A text codec name (Python `encoding: str`) is modelled by the
corresponding encode function `List Char → List Nat`, and on the decode
side by a function `List Nat → Option (List Char)` where `none` models a
raised `UnicodeDecodeError`.  The codecs `utf-8` and `utf-16-le` are given
concrete executable models below, faithful to the standard codecs the
Python runtime provides.
-/

namespace Steganography

/-- The module constant `ZERO_WIDTH_SPACE` (U+200B), the default marker. -/
def ZERO_WIDTH_SPACE : Char := Char.ofNat 0x200B

/-- The eight binary digits of a byte, most significant first: models the
Python format expression `f"{byte:08b}"` for a byte value below 256. -/
def bitsOfByte (b : Nat) : List Bool :=
  [b.testBit 7, b.testBit 6, b.testBit 5, b.testBit 4,
   b.testBit 3, b.testBit 2, b.testBit 1, b.testBit 0]

/-- The bit stream of a byte string: each byte contributes its eight bits,
most significant first, byte order preserved. -/
def bitsOfBytes : List Nat → List Bool
  | [] => []
  | b :: bs => bitsOfByte b ++ bitsOfBytes bs

/-- `int(current_byte, 2)` for a string of binary digits, most significant
digit first. -/
def byteOfBits (bits : List Bool) : Nat :=
  bits.foldl (fun n b => 2 * n + (if b then 1 else 0)) 0

/-- UTF-8 encoding of a single code point (model of the standard codec). -/
def utf8EncodeChar (c : Char) : List Nat :=
  let n := c.toNat
  if n < 0x80 then [n]
  else if n < 0x800 then [0xC0 + n / 64, 0x80 + n % 64]
  else if n < 0x10000 then [0xE0 + n / 4096, 0x80 + n / 64 % 64, 0x80 + n % 64]
  else [0xF0 + n / 262144, 0x80 + n / 4096 % 64, 0x80 + n / 64 % 64, 0x80 + n % 64]

/-- Model of Python `s.encode("utf-8")`. -/
def utf8Encode : List Char → List Nat
  | [] => []
  | c :: cs => utf8EncodeChar c ++ utf8Encode cs

/-- UTF-16 little endian encoding of a single code point (model of the
standard codec `utf-16-le`: no byte order mark, surrogate pairs for code
points at or above 0x10000). -/
def utf16leEncodeChar (c : Char) : List Nat :=
  let n := c.toNat
  if n < 0x10000 then [n % 256, n / 256]
  else
    let v := n - 0x10000
    let hi := 0xD800 + v / 1024
    let lo := 0xDC00 + v % 1024
    [hi % 256, hi / 256, lo % 256, lo / 256]

/-- Model of Python `s.encode("utf-16-le")`. -/
def utf16leEncode : List Char → List Nat
  | [] => []
  | c :: cs => utf16leEncodeChar c ++ utf16leEncode cs

/-- Decode one UTF-8 sequence from the front of a byte string, returning
the code point and the remaining bytes; `none` on malformed input
(stray or missing continuation byte, overlong form, surrogate, or a code
point beyond U+10FFFF), exactly the inputs the strict Python `utf-8`
codec rejects. -/
def utf8DecodeOne (b : Nat) (rest : List Nat) : Option (Nat × List Nat) :=
  if b < 0x80 then some (b, rest)
  else if b < 0xC0 then none
  else if b < 0xE0 then
    match rest with
    | b2 :: r =>
      if 0x80 ≤ b2 ∧ b2 < 0xC0 then
        let cp := (b - 0xC0) * 64 + (b2 - 0x80)
        if cp < 0x80 then none else some (cp, r)
      else none
    | [] => none
  else if b < 0xF0 then
    match rest with
    | b2 :: b3 :: r =>
      if (0x80 ≤ b2 ∧ b2 < 0xC0) ∧ (0x80 ≤ b3 ∧ b3 < 0xC0) then
        let cp := (b - 0xE0) * 4096 + (b2 - 0x80) * 64 + (b3 - 0x80)
        if cp < 0x800 ∨ (0xD800 ≤ cp ∧ cp < 0xE000) then none else some (cp, r)
      else none
    | _ => none
  else if b < 0xF8 then
    match rest with
    | b2 :: b3 :: b4 :: r =>
      if (0x80 ≤ b2 ∧ b2 < 0xC0) ∧ (0x80 ≤ b3 ∧ b3 < 0xC0) ∧ (0x80 ≤ b4 ∧ b4 < 0xC0) then
        let cp := (b - 0xF0) * 262144 + (b2 - 0x80) * 4096 + (b3 - 0x80) * 64 + (b4 - 0x80)
        if cp < 0x10000 ∨ 0x10FFFF < cp then none else some (cp, r)
      else none
    | _ => none
  else none

/-- UTF-8 decoding with an explicit fuel argument; every step consumes at
least one byte, so fuel equal to the byte count is always sufficient. -/
def utf8DecodeAux : Nat → List Nat → Option (List Char)
  | _, [] => some []
  | 0, _ :: _ => none
  | fuel + 1, b :: rest =>
    match utf8DecodeOne b rest with
    | none => none
    | some (cp, r) =>
      match utf8DecodeAux fuel r with
      | some cs => some (Char.ofNat cp :: cs)
      | none => none

/-- Model of Python `bs.decode("utf-8")`; `none` models `UnicodeDecodeError`. -/
def utf8Decode (bs : List Nat) : Option (List Char) :=
  utf8DecodeAux bs.length bs

/-- `can_encode` (src/steganography.py lines 7 to 15): the hidden text can
be embedded when the carrier has at least `payload byte count * 8 + 1`
characters.  The codec name parameter `encoding` is modelled by the encode
function `enc`. -/
def can_encode (text : List Char) (hidden_text : List Char)
    (enc : List Char → List Nat) : Bool :=
  let required_chars := (enc hidden_text).length * 8 + 1
  decide (text.length ≥ required_chars)

/-- `iter_bits_of_str` (lines 18 to 22): the bit stream of the payload of a
string under the given codec, most significant bit of each byte first.  The
Python generator is lazy; the encoder consumes it in a single forward pass,
so the materialised list is an equivalent model. -/
def iter_bits_of_str (str_ : List Char) (enc : List Char → List Nat) : List Bool :=
  bitsOfBytes (enc str_)

/-- The two raise sites of `ValueError("Given text is not long enough to
contain hidden text")` in `write_steganography`: the capacity pre-check on
line 32 and the post-loop guard for unread payload bits on line 55.  Both
carry the same message in the source; the constructors record the trigger
point. -/
inductive StegoError where
  | capacityPre : StegoError
  | capacityPost : StegoError

/-- The encoder loop of `write_steganography` (lines 39 to 48): for each
carrier character, append it to the buffer, pull the next bit, and append
the marker after the character when the bit is one; when the bit stream is
exhausted, break (the current character is already in the buffer).  Returns
the buffer, the unread remainder of the bit stream (inspected by the
post-loop guard), and the unread remainder of the carrier (appended to the
buffer on line 57). -/
def writeLoop (hidden_char : Char) : List Char → List Bool → List Char × List Bool × List Char
  | [], bits => ([], bits, [])
  | char :: chars, [] => ([char], [], chars)
  | char :: chars, bit :: bits =>
    let r := writeLoop hidden_char chars bits
    (char :: (if bit then [hidden_char] else []) ++ r.1, r.2.1, r.2.2)

/-- `write_steganography` (lines 25 to 59).  Note that the source calls
`can_encode(text, hidden_text)` on line 31 without forwarding its
`encoding` argument, so the pre-check always uses the default utf-8 codec,
while the bit stream on line 37 uses the caller codec `enc`.  A raised
`ValueError` is modelled as an `Except.error`; nothing of the string
buffer is retrievable in that case, matching the exception semantics. -/
def write_steganography (text hidden_text : List Char)
    (enc : List Char → List Nat) (hidden_char : Char) : Except StegoError (List Char) :=
  if can_encode text hidden_text utf8Encode then
    let hidden_text_bits := iter_bits_of_str hidden_text enc
    let r := writeLoop hidden_char text hidden_text_bits
    match r.2.1 with
    | [] => .ok (r.1 ++ r.2.2)
    | _ :: _ => .error .capacityPost
  else .error .capacityPre

/-- The decoder scan of `read_steganography` (lines 70 to 87), written as a
recursion on the unread suffix of the text.  The source iterates by index
with lookahead to `index + 1`; since only the current character and its
successor are inspected, and consuming a marker skips exactly one position,
the index bookkeeping is equivalent to recursing on the suffix.  When the
current character is the last one (`index + 1 >= len(text)`), the scan
stops and the partial accumulator is discarded; a completed all-zero byte
stops the scan without being appended; any other completed byte is appended
and the accumulator is reset. -/
def decodeLoop (hidden_char : Char) : List Char → List Bool → List Nat → List Nat
  | [], _, hidden_bytes => hidden_bytes
  | [_], _, hidden_bytes => hidden_bytes
  | _ :: c2 :: rest, current_byte, hidden_bytes =>
    if c2 = hidden_char then
      if current_byte ++ [true] = List.replicate 8 false then hidden_bytes
      else if (current_byte ++ [true]).length = 8 then
        decodeLoop hidden_char rest [] (hidden_bytes ++ [byteOfBits (current_byte ++ [true])])
      else
        decodeLoop hidden_char rest (current_byte ++ [true]) hidden_bytes
    else
      if current_byte ++ [false] = List.replicate 8 false then hidden_bytes
      else if (current_byte ++ [false]).length = 8 then
        decodeLoop hidden_char (c2 :: rest) [] (hidden_bytes ++ [byteOfBits (current_byte ++ [false])])
      else
        decodeLoop hidden_char (c2 :: rest) (current_byte ++ [false]) hidden_bytes

/-- `read_steganography` (lines 62 to 89): run the scan over the whole
text with an empty accumulator and decode the collected bytes with the
caller codec, modelled by the decode function `dec`. -/
def read_steganography (text : List Char) (dec : List Nat → Option (List Char))
    (hidden_char : Char) : Option (List Char) :=
  dec (decodeLoop hidden_char text [] [])

/-- The shape of a successful encoder output: each carrier character,
followed by the marker when its bit is one, until the bit stream runs out;
the remaining carrier characters verbatim.  This is a specification-side
description of `writeLoop`; the connecting lemmas are below. -/
def emb (hidden_char : Char) : List Char → List Bool → List Char
  | chars, [] => chars
  | [], _ :: _ => []
  | char :: chars, bit :: bits =>
    char :: (if bit then [hidden_char] else []) ++ emb hidden_char chars bits

/-! ### Basic facts about bits and bytes -/

theorem bitsOfByte_length (b : Nat) : (bitsOfByte b).length = 8 := rfl

theorem bitsOfBytes_length (B : List Nat) : (bitsOfBytes B).length = 8 * B.length := by
  induction B with
  | nil => rfl
  | cons b bs ih =>
    simp [bitsOfBytes, bitsOfByte, ih, List.length_cons]
    omega

set_option maxRecDepth 10000 in
theorem byteOfBits_bitsOfByte : ∀ b : Nat, b < 256 → byteOfBits (bitsOfByte b) = b := by
  decide

set_option maxRecDepth 10000 in
theorem bitsOfByte_ne_allZero : ∀ b : Nat, b < 256 → 0 < b →
    bitsOfByte b ≠ List.replicate 8 false := by
  decide

theorem append_true_ne_allZero (acc : List Bool) (l : List Bool) :
    acc ++ true :: l ≠ List.replicate 8 false := by
  intro h
  have hmem : true ∈ List.replicate 8 false := by
    rw [← h]; simp
  simpa using List.eq_of_mem_replicate hmem

/-! ### The encoder loop -/

theorem writeLoop_rem (m : Char) :
    ∀ (chars : List Char) (bits : List Bool),
      (writeLoop m chars bits).2.1 = bits.drop chars.length := by
  intro chars
  induction chars with
  | nil => intro bits; simp [writeLoop]
  | cons c cs ih =>
    intro bits
    cases bits with
    | nil => simp [writeLoop]
    | cons b bs => simpa [writeLoop] using ih bs

theorem writeLoop_out (m : Char) :
    ∀ (chars : List Char) (bits : List Bool), bits.length ≤ chars.length →
      (writeLoop m chars bits).1 ++ (writeLoop m chars bits).2.2 = emb m chars bits := by
  intro chars
  induction chars with
  | nil =>
    intro bits h
    have : bits = [] := List.eq_nil_of_length_eq_zero (Nat.le_zero.mp (by simpa using h))
    subst this
    simp [writeLoop, emb]
  | cons c cs ih =>
    intro bits h
    cases bits with
    | nil => simp [writeLoop, emb]
    | cons b bs =>
      have hb : bs.length ≤ cs.length := by simpa using h
      simp [writeLoop, emb, ← ih bs hb]

theorem write_ok_of_le (C H : List Char) (enc : List Char → List Nat) (m : Char)
    (hpre : can_encode C H utf8Encode = true)
    (hle : (iter_bits_of_str H enc).length ≤ C.length) :
    write_steganography C H enc m = Except.ok (emb m C (iter_bits_of_str H enc)) := by
  have hrem : (writeLoop m C (iter_bits_of_str H enc)).2.1 = [] := by
    rw [writeLoop_rem]
    exact List.drop_eq_nil_of_le hle
  unfold write_steganography
  rw [if_pos hpre]
  simp only [hrem]
  rw [writeLoop_out m C _ hle]

theorem write_ok_inv (C H : List Char) (enc : List Char → List Nat) (m : Char)
    (out : List Char) (hok : write_steganography C H enc m = Except.ok out) :
    (iter_bits_of_str H enc).length ≤ C.length ∧ out = emb m C (iter_bits_of_str H enc) := by
  unfold write_steganography at hok
  by_cases hpre : can_encode C H utf8Encode = true
  · rw [if_pos hpre] at hok
    simp only [writeLoop_rem] at hok
    rcases hdrop : (iter_bits_of_str H enc).drop C.length with _ | ⟨x, xs⟩
    · rw [hdrop] at hok
      have hle : (iter_bits_of_str H enc).length ≤ C.length := by
        by_contra hgt
        push_neg at hgt
        have := congrArg List.length hdrop
        simp [List.length_drop] at this
        omega
      refine ⟨hle, ?_⟩
      rw [writeLoop_out m C _ hle] at hok
      exact (Except.ok.inj hok).symm
    · rw [hdrop] at hok
      cases hok
  · rw [if_neg hpre] at hok
    cases hok

/-! ### Shape of the encoded output -/

theorem emb_nil (m : Char) (chars : List Char) : emb m chars [] = chars := by
  cases chars <;> rfl

theorem emb_cons_exists (m : Char) (c : Char) (chars : List Char) (bits : List Bool) :
    ∃ t, emb m (c :: chars) bits = c :: t := by
  cases bits with
  | nil => exact ⟨chars, rfl⟩
  | cons b bs => exact ⟨(if b then [m] else []) ++ emb m chars bs, rfl⟩

theorem emb_append (m : Char) :
    ∀ (cs1 : List Char) (bits1 : List Bool) (cs2 : List Char) (bits2 : List Bool),
      cs1.length = bits1.length →
      emb m (cs1 ++ cs2) (bits1 ++ bits2) = emb m cs1 bits1 ++ emb m cs2 bits2 := by
  intro cs1
  induction cs1 with
  | nil =>
    intro bits1 cs2 bits2 h
    have : bits1 = [] := List.eq_nil_of_length_eq_zero (by simpa using h.symm)
    subst this
    simp [emb_nil]
  | cons c cs ih =>
    intro bits1 cs2 bits2 h
    cases bits1 with
    | nil => simp at h
    | cons b bs =>
      have hb : cs.length = bs.length := by simpa using h
      simp [emb, ih bs cs2 bits2 hb]

theorem emb_length (m : Char) :
    ∀ (chars : List Char) (bits : List Bool), bits.length ≤ chars.length →
      (emb m chars bits).length = chars.length + bits.count true := by
  intro chars
  induction chars with
  | nil =>
    intro bits h
    have : bits = [] := List.eq_nil_of_length_eq_zero (Nat.le_zero.mp (by simpa using h))
    subst this
    simp [emb]
  | cons c cs ih =>
    intro bits h
    cases bits with
    | nil => simp [emb_nil]
    | cons b bs =>
      have hb : bs.length ≤ cs.length := by simpa using h
      cases b <;> simp [emb, ih bs hb, List.count_cons] <;> omega

theorem emb_filter (m : Char) :
    ∀ (chars : List Char) (bits : List Bool), m ∉ chars → bits.length ≤ chars.length →
      (emb m chars bits).filter (fun c => !decide (c = m)) = chars := by
  intro chars
  induction chars with
  | nil =>
    intro bits _ h
    have : bits = [] := List.eq_nil_of_length_eq_zero (Nat.le_zero.mp (by simpa using h))
    subst this
    simp [emb]
  | cons c cs ih =>
    intro bits hm h
    have hcm : c ≠ m := fun hc => hm (hc ▸ List.mem_cons_self c cs)
    have hms : m ∉ cs := fun hmem => hm (List.mem_cons_of_mem c hmem)
    cases bits with
    | nil =>
      rw [emb_nil]
      have : ∀ l : List Char, m ∉ l → l.filter (fun x => !decide (x = m)) = l := by
        intro l
        induction l with
        | nil => intro _; rfl
        | cons a as iha =>
          intro hl
          have ha : a ≠ m := fun h2 => hl (h2 ▸ List.mem_cons_self a as)
          simp [List.filter, ha, iha (fun h2 => hl (List.mem_cons_of_mem a h2))]
      exact this (c :: cs) hm
    | cons b bs =>
      have hb : bs.length ≤ cs.length := by simpa using h
      cases b <;> simp [emb, List.filter, hcm, ih bs hms hb]

/-! ### The decoder scan -/

theorem decode_zeros (m : Char) :
    ∀ (t : List Char), m ∉ t → ∀ (k : Nat) (bs : List Nat), k < 8 →
      decodeLoop m t (List.replicate k false) bs = bs := by
  intro t
  induction t with
  | nil => intro _ k bs _; rfl
  | cons c t' ih =>
    intro hm k bs hk
    cases t' with
    | nil => rfl
    | cons c2 rest =>
      have hc2 : ¬(c2 = m) := by
        intro h
        exact hm (h ▸ List.mem_cons_of_mem c (List.mem_cons_self c2 rest))
      have hms : m ∉ c2 :: rest := fun h => hm (List.mem_cons_of_mem c h)
      rw [decodeLoop, if_neg hc2, ← List.replicate_succ']
      by_cases hk8 : k + 1 = 8
      · rw [hk8, if_pos rfl]
      · have hne : List.replicate (k + 1) false ≠ List.replicate 8 false := by
          intro h
          have := congrArg List.length h
          simp at this
          omega
        rw [if_neg hne, if_neg (by simp [hk8]), ih hms (k + 1) bs (by omega)]

theorem decode_bits_aux (m : Char) :
    ∀ (bits : List Bool) (cs : List Char) (acc : List Bool) (bs : List Nat) (r : Char) (rs : List Char),
      cs.length = bits.length → m ∉ cs → r ≠ m →
      acc.length + bits.length = 8 → bits ≠ [] →
      acc ++ bits ≠ List.replicate 8 false →
      decodeLoop m (emb m cs bits ++ r :: rs) acc bs =
        decodeLoop m (r :: rs) [] (bs ++ [byteOfBits (acc ++ bits)]) := by
  intro bits
  induction bits with
  | nil => intro cs acc bs r rs _ _ _ _ hne _; exact absurd rfl hne
  | cons b bits' ih =>
    intro cs acc bs r rs hlen hm hr hlen8 _ hnz
    cases cs with
    | nil => simp at hlen
    | cons c cs' =>
      have hlen' : cs'.length = bits'.length := by simpa using hlen
      have hms : m ∉ cs' := fun h => hm (List.mem_cons_of_mem c h)
      cases bits' with
      | nil =>
        have hcs' : cs' = [] := List.eq_nil_of_length_eq_zero (by simpa using hlen')
        subst hcs'
        have hacc7 : acc.length + 1 = 8 := by simpa using hlen8
        cases b with
        | true =>
          have e1 : emb m [c] [true] ++ r :: rs = c :: m :: r :: rs := by simp [emb]
          rw [e1, decodeLoop]
          rw [if_pos rfl, if_neg (append_true_ne_allZero acc []), if_pos (by simp [hacc7])]
        | false =>
          have e1 : emb m [c] [false] ++ r :: rs = c :: r :: rs := by simp [emb]
          rw [e1, decodeLoop]
          rw [if_neg hr, if_neg hnz, if_pos (by simp [hacc7])]
      | cons b' bits'' =>
        cases cs' with
        | nil => simp at hlen'
        | cons c' cs'' =>
          have hc'm : ¬(c' = m) := fun h => hms (h ▸ List.mem_cons_self c' cs'')
          have h8 : ¬(acc.length + 1 = 8) := by
            simp [List.length_cons] at hlen8
            omega
          have hzne : ∀ x : Bool, ¬(acc ++ [x] = List.replicate 8 false) := by
            intro x h
            have := congrArg List.length h
            simp at this
            omega
          cases b with
          | true =>
            have e1 : emb m (c :: c' :: cs'') (true :: b' :: bits'') ++ r :: rs
                = c :: m :: (emb m (c' :: cs'') (b' :: bits'') ++ r :: rs) := by
              simp [emb]
            rw [e1, decodeLoop]
            rw [if_pos rfl, if_neg (hzne true), if_neg (by simpa using h8)]
            rw [ih (c' :: cs'') (acc ++ [true]) bs r rs (by simpa using hlen') hms hr
              (by simp [List.length_cons] at hlen8 ⊢; omega) (by simp)
              (by simpa [List.append_assoc] using hnz)]
            simp [List.append_assoc]
          | false =>
            have e1 : emb m (c :: c' :: cs'') (false :: b' :: bits'') ++ r :: rs
                = c :: (emb m (c' :: cs'') (b' :: bits'') ++ r :: rs) := by
              simp [emb]
            obtain ⟨t, ht⟩ := emb_cons_exists m c' cs'' (b' :: bits'')
            rw [e1, ht, List.cons_append, decodeLoop]
            rw [if_neg hc'm, if_neg (hzne false), if_neg (by simpa using h8)]
            rw [← List.cons_append, ← ht]
            rw [ih (c' :: cs'') (acc ++ [false]) bs r rs (by simpa using hlen') hms hr
              (by simp [List.length_cons] at hlen8 ⊢; omega) (by simp)
              (by simpa [List.append_assoc] using hnz)]
            simp [List.append_assoc]

theorem decode_bytes (m : Char) :
    ∀ (B : List Nat) (cs : List Char) (bs : List Nat) (r : Char) (rs : List Char),
      (∀ b ∈ B, 0 < b ∧ b < 256) →
      cs.length = 8 * B.length → m ∉ cs → r ≠ m →
      decodeLoop m (emb m cs (bitsOfBytes B) ++ r :: rs) [] bs =
        decodeLoop m (r :: rs) [] (bs ++ B) := by
  intro B
  induction B with
  | nil =>
    intro cs bs r rs _ hlen _ _
    have : cs = [] := List.eq_nil_of_length_eq_zero (by simpa using hlen)
    subst this
    simp [bitsOfBytes, emb]
  | cons b B' ihB =>
    intro cs bs r rs hB hlen hm hr
    have hb := hB b (List.mem_cons_self b B')
    obtain ⟨cs1, cs2, hcs, hlen1, hlen2⟩ :
        ∃ cs1 cs2, cs = cs1 ++ cs2 ∧ cs1.length = 8 ∧ cs2.length = 8 * B'.length := by
      refine ⟨cs.take 8, cs.drop 8, (List.take_append_drop 8 cs).symm, ?_, ?_⟩
      · rw [List.length_take]
        simp [List.length_cons] at hlen
        omega
      · rw [List.length_drop]
        simp [List.length_cons] at hlen
        omega
    subst hcs
    have hm1 : m ∉ cs1 := fun h => hm (List.mem_append_left cs2 h)
    have hm2 : m ∉ cs2 := fun h => hm (List.mem_append_right cs1 h)
    have hbits : bitsOfBytes (b :: B') = bitsOfByte b ++ bitsOfBytes B' := rfl
    rw [hbits, emb_append m cs1 (bitsOfByte b) cs2 (bitsOfBytes B') (by rw [hlen1]; rfl)]
    cases B' with
    | nil =>
      have hcs2 : cs2 = [] := List.eq_nil_of_length_eq_zero (by simpa using hlen2)
      subst hcs2
      have e1 : (emb m cs1 (bitsOfByte b) ++ emb m [] (bitsOfBytes [])) ++ r :: rs
          = emb m cs1 (bitsOfByte b) ++ r :: rs := by simp [bitsOfBytes, emb]
      rw [e1, decode_bits_aux m (bitsOfByte b) cs1 [] bs r rs (by rw [hlen1]; rfl) hm1 hr
        (by rfl) (by simp [bitsOfByte]) (by simpa using bitsOfByte_ne_allZero b hb.2 hb.1)]
      simp [byteOfBits_bitsOfByte b hb.2]
    | cons b2 B'' =>
      have hcs2ne : cs2 ≠ [] := by
        intro h
        rw [h] at hlen2
        simp [List.length_cons] at hlen2
      obtain ⟨c2, cs2', hc2⟩ := List.exists_cons_of_ne_nil hcs2ne
      subst hc2
      have hc2m : c2 ≠ m := fun h => hm2 (h ▸ List.mem_cons_self c2 cs2')
      obtain ⟨t, ht⟩ := emb_cons_exists m c2 cs2' (bitsOfBytes (b2 :: B''))
      have e1 : (emb m cs1 (bitsOfByte b) ++ emb m (c2 :: cs2') (bitsOfBytes (b2 :: B''))) ++ r :: rs
          = emb m cs1 (bitsOfByte b) ++ c2 :: (t ++ r :: rs) := by
        rw [ht]
        simp [List.append_assoc]
      rw [e1, decode_bits_aux m (bitsOfByte b) cs1 [] bs c2 (t ++ r :: rs) (by rw [hlen1]; rfl)
        hm1 hc2m (by rfl) (by simp [bitsOfByte]) (by simpa using bitsOfByte_ne_allZero b hb.2 hb.1)]
      have e2 : (c2 : Char) :: (t ++ r :: rs) = emb m (c2 :: cs2') (bitsOfBytes (b2 :: B'')) ++ r :: rs := by
        rw [ht]
        simp
      rw [e2, ihB (c2 :: cs2') (bs ++ [byteOfBits ([] ++ bitsOfByte b)]) r rs
        (fun x hx => hB x (List.mem_cons_of_mem b hx)) hlen2 hm2 hr]
      simp [byteOfBits_bitsOfByte b hb.2]

/-! ### Claim theorems -/

/-- Claim C2: for every carrier text (of length L) and hidden text whose
payload under the codec has B bytes, `can_encode` returns true if and only
if L is at least 8 times B plus 1; in particular it returns false for every
shorter carrier and true at exactly that length. -/
theorem can_encode_iff_capacity (text hidden_text : List Char) (enc : List Char → List Nat) :
    (can_encode text hidden_text enc = true ↔ (enc hidden_text).length * 8 + 1 ≤ text.length) ∧
    (text.length < (enc hidden_text).length * 8 + 1 → can_encode text hidden_text enc = false) ∧
    (text.length = (enc hidden_text).length * 8 + 1 → can_encode text hidden_text enc = true) := by
  refine ⟨?_, ?_, ?_⟩
  all_goals simp [can_encode]
  all_goals omega

/-- Witness for C2: a carrier of exactly 9 characters holds a 1-byte payload. -/
theorem can_encode_iff_capacity_witness :
    can_encode (List.replicate 9 'a') ['b'] utf8Encode = true :=
  (can_encode_iff_capacity (List.replicate 9 'a') ['b'] utf8Encode).2.2 (by decide)

/-- Claim C5: for every carrier shorter than the required number of slots
for the hidden text (the `can_encode` formula, whose payload byte count is
the one the pre-check computes, i.e. under the default utf-8 codec — see
C3), encoding fails with the insufficient-capacity error at the pre-check,
whatever codec is passed for the bit stream; the `Except.error` result
models the raised `ValueError`, so no output is retrievable at all, not
even a truncated one. -/
theorem write_insufficient_raises (C H : List Char) (enc : List Char → List Nat) (m : Char)
    (hshort : C.length < (utf8Encode H).length * 8 + 1) :
    write_steganography C H enc m = Except.error StegoError.capacityPre := by
  have hfalse : ¬(can_encode C H utf8Encode = true) := by
    simp [can_encode]
    omega
  unfold write_steganography
  rw [if_neg hfalse]

/-- Witness for C5: a 1-character carrier cannot hold a 1-byte payload. -/
theorem write_insufficient_raises_witness :
    write_steganography ['a'] ['b'] utf8Encode '_' = Except.error StegoError.capacityPre :=
  write_insufficient_raises ['a'] ['b'] utf8Encode '_' (by decide)

/-- Claim C6: whenever encoding succeeds, the output length is the carrier
length plus the number of 1-bits in the payload bit stream (on success the
whole stream is consumed, so the consumed portion is the full stream). -/
theorem write_ok_length (C H : List Char) (enc : List Char → List Nat) (m : Char)
    (out : List Char) (hok : write_steganography C H enc m = Except.ok out) :
    out.length = C.length + (iter_bits_of_str H enc).count true := by
  obtain ⟨hle, hout⟩ := write_ok_inv C H enc m out hok
  rw [hout, emb_length m C _ hle]

/-- Witness for C6: hiding the 1-byte payload 0x01 in nine characters
gives ten characters, the carrier plus one marker. -/
theorem write_ok_length_witness :
    (List.replicate 8 'a' ++ ['_', 'a'] : List Char).length =
      (List.replicate 9 'a').length + (iter_bits_of_str [Char.ofNat 1] utf8Encode).count true :=
  write_ok_length (List.replicate 9 'a') [Char.ofNat 1] utf8Encode '_'
    (List.replicate 8 'a' ++ ['_', 'a']) rfl

/-- Claim C10: for a carrier containing no marker character, whenever
encoding succeeds, deleting every occurrence of the marker character from
the output yields exactly the carrier: encoding only inserts markers, never
altering, reordering or dropping carrier characters. -/
theorem write_preserves_carrier (C H : List Char) (enc : List Char → List Nat) (m : Char)
    (out : List Char) (hm : m ∉ C)
    (hok : write_steganography C H enc m = Except.ok out) :
    out.filter (fun c => !decide (c = m)) = C := by
  obtain ⟨hle, hout⟩ := write_ok_inv C H enc m out hok
  rw [hout]
  exact emb_filter m C _ hm hle

/-- Witness for C10 at a concrete encoding. -/
theorem write_preserves_carrier_witness :
    (List.replicate 8 'a' ++ ['_', 'a'] : List Char).filter (fun c => !decide (c = '_')) =
      List.replicate 9 'a' :=
  write_preserves_carrier (List.replicate 9 'a') [Char.ofNat 1] utf8Encode '_'
    (List.replicate 8 'a' ++ ['_', 'a']) (by decide) rfl

/-- Claim C4: whenever the decoder accumulator reaches exactly 8 bits it is
interpreted as a byte immediately: an all-zero byte stops the scan and is
discarded (the collected bytes are returned unchanged); any other byte is
appended to the output byte sequence and the accumulator is reset, the scan
continuing after the consumed character pair. -/
theorem decoder_byte_boundary (m c c2 : Char) (rest : List Char) (acc : List Bool)
    (bs : List Nat) (h7 : acc.length = 7) :
    (acc ++ [decide (c2 = m)] = List.replicate 8 false →
      decodeLoop m (c :: c2 :: rest) acc bs = bs) ∧
    (acc ++ [decide (c2 = m)] ≠ List.replicate 8 false →
      decodeLoop m (c :: c2 :: rest) acc bs =
        decodeLoop m (if c2 = m then rest else c2 :: rest) []
          (bs ++ [byteOfBits (acc ++ [decide (c2 = m)])])) := by
  by_cases hc : c2 = m
  · rw [decide_eq_true hc, if_pos hc]
    constructor
    · intro hz
      exact absurd hz (append_true_ne_allZero acc [])
    · intro _
      rw [decodeLoop, if_pos hc, if_neg (by simpa using append_true_ne_allZero acc []),
        if_pos (by simp [h7])]
  · simp only [if_neg hc, decide_eq_false hc]
    constructor
    · intro hz
      rw [decodeLoop, if_neg hc, if_pos hz]
    · intro hnz
      rw [decodeLoop, if_neg hc, if_neg hnz, if_pos (by simp [h7])]

/-- Witness for C4: seven zero bits followed by a zero bit complete the
all-zero terminator byte, so the scan stops with no byte appended. -/
theorem decoder_byte_boundary_witness :
    decodeLoop '_' ['a', 'a'] (List.replicate 7 false) [] = ([] : List Nat) :=
  (decoder_byte_boundary '_' 'a' 'a' [] (List.replicate 7 false) [] (by simp)).1 (by decide)

/-- Claim C8: when the current character is the last character of the text,
the decoder stops the entire scan, silently discarding the partially
accumulated byte and yielding exactly the bytes decoded so far (which
`read_steganography` then decodes to text); reaching the end of the text is
never itself an error. -/
theorem decoder_stops_at_last_char (m c : Char) (acc : List Bool) (bs : List Nat) :
    decodeLoop m [c] acc bs = bs := rfl

/-- Claim C1 counterexample: the round trip fails as stated.  With the
9-character carrier of letters a, the 1-character hidden text U+0000
(payload byte 0x00, so `can_encode` holds), and the default marker,
encoding succeeds and returns the carrier unchanged, but decoding the
result yields the empty text, not the hidden text: the all-zero payload
byte is indistinguishable from the terminator. -/
theorem roundtrip_fails_on_zero_byte :
    can_encode (List.replicate 9 'a') [Char.ofNat 0] utf8Encode = true ∧
    write_steganography (List.replicate 9 'a') [Char.ofNat 0] utf8Encode ZERO_WIDTH_SPACE =
      Except.ok (List.replicate 9 'a') ∧
    read_steganography (List.replicate 9 'a') utf8Decode ZERO_WIDTH_SPACE = some [] ∧
    ([] : List Char) ≠ [Char.ofNat 0] :=
  ⟨by decide, rfl, rfl, by decide⟩

/-- Claim C1 (amended): the round trip holds for every carrier containing
no occurrence of the marker character and every hidden text whose payload
bytes are all nonzero (and valid bytes), provided the decode side of the
codec inverts its encode side on the hidden text and the capacity
predicate holds both under the caller codec and under the default utf-8
codec that the encoder pre-check actually uses: decoding the result of
encoding returns exactly the hidden text. -/
theorem write_read_roundtrip (C H : List Char) (enc : List Char → List Nat)
    (dec : List Nat → Option (List Char)) (m : Char)
    (hm : m ∉ C)
    (hbytes : ∀ b ∈ enc H, 0 < b ∧ b < 256)
    (hdec : dec (enc H) = some H)
    (hcap8 : can_encode C H utf8Encode = true)
    (hcap : can_encode C H enc = true) :
    (write_steganography C H enc m).map (fun w => read_steganography w dec m) =
      Except.ok (some H) := by
  have hcaplen : (enc H).length * 8 + 1 ≤ C.length := by
    simp [can_encode] at hcap
    omega
  have hbitslen : (iter_bits_of_str H enc).length = 8 * (enc H).length :=
    bitsOfBytes_length (enc H)
  have hle : (iter_bits_of_str H enc).length ≤ C.length := by omega
  rw [write_ok_of_le C H enc m hcap8 hle]
  simp only [Except.map]
  refine congrArg Except.ok ?_
  obtain ⟨cs, tail, hC, hcs, htail⟩ :
      ∃ cs tail, C = cs ++ tail ∧ cs.length = 8 * (enc H).length ∧ tail ≠ [] := by
    refine ⟨C.take (8 * (enc H).length), C.drop (8 * (enc H).length),
      (List.take_append_drop _ C).symm, ?_, ?_⟩
    · rw [List.length_take]
      omega
    · intro h
      have := congrArg List.length h
      rw [List.length_drop] at this
      simp at this
      omega
  obtain ⟨r, rs, hrr⟩ := List.exists_cons_of_ne_nil htail
  subst hrr
  have hmcs : m ∉ cs := fun h => hm (hC ▸ List.mem_append_left _ h)
  have hmtail : m ∉ r :: rs := fun h => hm (hC ▸ List.mem_append_right _ h)
  have hrm : r ≠ m := fun h => hmtail (h ▸ List.mem_cons_self r rs)
  have hemb : emb m C (iter_bits_of_str H enc) = emb m cs (bitsOfBytes (enc H)) ++ r :: rs := by
    rw [hC]
    have := emb_append m cs (bitsOfBytes (enc H)) (r :: rs) []
      (by rw [hcs, bitsOfBytes_length])
    simpa [emb_nil] using this
  unfold read_steganography
  rw [hemb, decode_bytes m (enc H) cs [] r rs hbytes hcs hmcs hrm]
  have hz : decodeLoop m (r :: rs) [] (enc H) = enc H := by
    simpa using decode_zeros m (r :: rs) hmtail 0 (enc H) (by omega)
  rw [List.nil_append, hz, hdec]

/-- Witness for the amended C1: hiding the text b (one byte, 0x62) in nine
characters and reading it back recovers exactly that text. -/
theorem write_read_roundtrip_witness :
    (write_steganography (List.replicate 9 'a') ['b'] utf8Encode '_').map
      (fun w => read_steganography w utf8Decode '_') = Except.ok (some ['b']) :=
  write_read_roundtrip (List.replicate 9 'a') ['b'] utf8Encode utf8Decode '_'
    (by decide) (by decide) (by decide) (by decide) (by decide)

/-- Claim C3: the encoder does NOT honour the caller codec in its capacity
pre-check.  Line 31 of the source calls `can_encode(text, hidden_text)`
without forwarding `encoding`, so the pre-check measures the utf-8 payload
while the bit stream uses the caller codec.  Concretely, for a 9-character
carrier and hidden text a under utf-16-le (2 payload bytes, requiring 17
slots) the caller-codec capacity predicate is false, yet encoding passes
the pre-check (utf-8 payload is 1 byte, requiring 9 slots) and only fails
later at the post-loop guard, instead of failing fast as the claim
requires. -/
theorem precheck_ignores_caller_encoding :
    can_encode (List.replicate 9 'a') ['a'] utf16leEncode = false ∧
    can_encode (List.replicate 9 'a') ['a'] utf8Encode = true ∧
    write_steganography (List.replicate 9 'a') ['a'] utf16leEncode '_' =
      Except.error StegoError.capacityPost :=
  ⟨by decide, by decide, rfl⟩

/-- Claim C7 counterexample: the post-loop guard is reachable even when the
step-1 pre-check passes.  For a 9-character carrier and hidden text a, the
pre-check (which always uses utf-8) passes, but under the caller codec
utf-16-le the bit stream has 16 bits, the carrier is exhausted after 9,
and the guard raises the second insufficient-capacity error. -/
theorem post_guard_fires_on_mismatched_encoding :
    can_encode (List.replicate 9 'b') ['a'] utf8Encode = true ∧
    write_steganography (List.replicate 9 'b') ['a'] utf16leEncode '_' =
      Except.error StegoError.capacityPost :=
  ⟨by decide, rfl⟩

/-- Claim C7 (amended): when the encoder is called with the default utf-8
codec — so that the pre-check and the bit stream agree — the post-loop
guard for unread payload bits never fires: if the pre-check passes, the
result is never the post-loop insufficient-capacity error. -/
theorem post_guard_unreachable_utf8 (C H : List Char) (m : Char)
    (hpre : can_encode C H utf8Encode = true) :
    write_steganography C H utf8Encode m ≠ Except.error StegoError.capacityPost := by
  have hcaplen : (utf8Encode H).length * 8 + 1 ≤ C.length := by
    simp [can_encode] at hpre
    omega
  have hbitslen : (iter_bits_of_str H utf8Encode).length = 8 * (utf8Encode H).length :=
    bitsOfBytes_length (utf8Encode H)
  have hle : (iter_bits_of_str H utf8Encode).length ≤ C.length := by omega
  rw [write_ok_of_le C H utf8Encode m hpre hle]
  intro h
  exact Except.noConfusion h

/-- Witness for the amended C7 at a concrete input. -/
theorem post_guard_unreachable_utf8_witness :
    write_steganography (List.replicate 9 'c') ['a'] utf8Encode '_' ≠
      Except.error StegoError.capacityPost :=
  post_guard_unreachable_utf8 (List.replicate 9 'c') ['a'] '_' (by decide)

/-- Claim C9 counterexample: for a non-empty carrier that contains the
marker character, encoding the empty hidden text succeeds and returns the
carrier unchanged, but decoding it does not yield the empty text: the
stray marker makes the decoder assemble the byte 0x80, which is invalid
utf-8, so reading fails with a decode error. -/
theorem empty_payload_decode_error_with_marker_in_carrier :
    write_steganography ['a', '_', 'b', 'c', 'd', 'e', 'f', 'g', 'h', 'i', 'j'] [] utf8Encode '_' =
      Except.ok ['a', '_', 'b', 'c', 'd', 'e', 'f', 'g', 'h', 'i', 'j'] ∧
    read_steganography ['a', '_', 'b', 'c', 'd', 'e', 'f', 'g', 'h', 'i', 'j'] utf8Decode '_' =
      none :=
  ⟨rfl, rfl⟩

/-- Claim C9 (amended): for every non-empty carrier containing no
occurrence of the marker character, encoding the empty hidden text (under
the default utf-8 codec) succeeds and returns the carrier unchanged — no
marker is inserted — and decoding that output with any codec that decodes
the empty byte string to the empty text yields the empty text. -/
theorem empty_payload_roundtrip (C : List Char) (m : Char)
    (dec : List Nat → Option (List Char))
    (hne : C ≠ []) (hm : m ∉ C) (hdec : dec [] = some []) :
    write_steganography C [] utf8Encode m = Except.ok C ∧
    read_steganography C dec m = some [] := by
  have hpre : can_encode C [] utf8Encode = true := by
    have := List.length_pos.mpr hne
    simp [can_encode, utf8Encode]
    omega
  constructor
  · rw [write_ok_of_le C [] utf8Encode m hpre
      (by simp [iter_bits_of_str, utf8Encode, bitsOfBytes])]
    rw [show iter_bits_of_str [] utf8Encode = ([] : List Bool) from rfl, emb_nil]
  · unfold read_steganography
    have hz : decodeLoop m C [] [] = [] := by
      simpa using decode_zeros m C hm 0 [] (by omega)
    rw [hz, hdec]

/-- Witness for the amended C9 at a concrete carrier. -/
theorem empty_payload_roundtrip_witness :
    write_steganography ['a', 'b'] [] utf8Encode '_' = Except.ok ['a', 'b'] ∧
    read_steganography ['a', 'b'] utf8Decode '_' = some [] :=
  empty_payload_roundtrip ['a', 'b'] '_' utf8Decode (by decide) (by decide) rfl

end Steganography
